import Mathlib

set_option maxHeartbeats 1000000
set_option linter.unusedVariables false

/-!
A verification development for the `pkgwatcher` package (`pkgwatcher.go`).

The package watches a set of Go packages and their transitive imports for
filesystem changes.  We shallowly embed its data model and operations:

* Go `path/filepath` string functions (`Clean`, `Dir`, `Base`, `Join` for
  Unix paths, no volume names) are modelled on `List Char` / `String`.
* The external package resolver (`go/build.Import`) and filesystem notifier
  (`fsnotify`) are opaque collaborators, modelled as oracle functions.
* Go maps are modelled as association lists; map iteration is modelled as
  iteration in insertion order (the claims proved below do not depend on
  the iteration order of Go maps).
* Channel sends of errors and calls into the notifier are recorded as
  traces in the state.
-/

/- ### Go `path/filepath` (Unix), as used by the watcher -/

/-- The inner copy loop of Go `filepath.Clean`'s default case: copy input
characters into the output buffer until a separator or the end of input.
The buffer is kept in reverse order (most recently written character first).
Returns the new buffer and the unread input. -/
def copySeg : List Char → List Char → List Char × List Char
  | [], rout => (rout, [])
  | c :: rest, rout => if c = '/' then (rout, c :: rest) else copySeg rest (c :: rout)

/-- The backtracking step of Go `filepath.Clean`'s ".." case
(`out.w--` followed by `for out.w > dotdot && out.index(out.w) != '/' { out.w-- }`),
on the reversed output buffer. -/
def segBacktrack (dotdot : Nat) : List Char → List Char
  | [] => []
  | c :: rest => if c ≠ '/' ∧ rest.length > dotdot then segBacktrack dotdot rest else rest

/-- Go `filepath.Clean`'s condition for writing a separator before the next
element: `rooted && out.w != 1 || !rooted && out.w != 0`. -/
def sepNeed (rooted : Bool) (rout : List Char) : Bool :=
  if rooted then rout.length ≠ 1 else rout.length ≠ 0

/-- The main loop of Go `filepath.Clean` (Unix, no volume name).  `rem` is the
unread input, `rout` the output buffer in reverse order, `dotdot` the limit
index for ".." backtracking. -/
def cleanLoop (rooted : Bool) (rem rout : List Char) (dotdot : Nat) : List Char :=
  match rem with
  | [] => rout
  | c :: rest =>
    if c = '/' then cleanLoop rooted rest rout dotdot
    else if c = '.' ∧ (rest = [] ∨ rest.head? = some '/') then
      cleanLoop rooted rest rout dotdot
    else if c = '.' ∧ rest.head? = some '.' ∧
        (rest.tail = [] ∨ rest.tail.head? = some '/') then
      if rout.length > dotdot then
        cleanLoop rooted rest.tail (segBacktrack dotdot rout) dotdot
      else if !rooted then
        let rout1 := if rout.length > 0 then '/' :: rout else rout
        cleanLoop rooted rest.tail ('.' :: '.' :: rout1) (rout1.length + 2)
      else cleanLoop rooted rest.tail rout dotdot
    else
      let rout1 := if sepNeed rooted rout then '/' :: rout else rout
      cleanLoop rooted (copySeg (c :: rest) rout1).2 (copySeg (c :: rest) rout1).1 dotdot
  termination_by rem.length
  decreasing_by
    · simp
    · simp
    · simp [List.length_tail]; omega
    · simp [List.length_tail]; omega
    · simp [List.length_tail]; omega
    · rename_i hcslash hdot hdd
      have hle : ∀ (l r : List Char), (copySeg l r).2.length ≤ l.length := by
        intro l
        induction l with
        | nil => intro r; simp [copySeg]
        | cons d ds ih =>
          intro r
          simp only [copySeg]
          by_cases hd : d = '/'
          · simp [hd]
          · simpa [hd] using Nat.le_succ_of_le (ih (d :: r))
      simp only [copySeg, if_neg hcslash, List.length_cons]
      exact Nat.lt_succ_of_le (hle rest _)

/-- Go `filepath.Clean` for Unix paths (`path/filepath`, no volume name). -/
def goClean (path : List Char) : List Char :=
  if path = [] then ['.']
  else
    let r := if path.head? = some '/' then cleanLoop true path.tail ['/'] 1
             else cleanLoop false path [] 0
    if r = [] then ['.'] else r.reverse

/-- The prefix of a path up to and including its last separator
(`path[: i+1]` for the index `i` computed by Go `filepath.Dir`),
empty if the path has no separator. -/
def dropAfterLastSep (p : List Char) : List Char :=
  (p.reverse.dropWhile (· ≠ '/')).reverse

/-- Go `filepath.Dir` for Unix paths: `Clean` of the prefix up to and
including the last separator. -/
def goDir (p : List Char) : List Char :=
  goClean (dropAfterLastSep p)

/-- Go `filepath.Base` for Unix paths. -/
def goBase (p : List Char) : List Char :=
  if p = [] then ['.']
  else
    let q := p.reverse.dropWhile (· = '/')
    if q = [] then ['/']
    else (q.takeWhile (· ≠ '/')).reverse

/-- Number of path separators in a character list. -/
def slashes (l : List Char) : Nat := l.count '/'

/-- Number of separators in `l` that are followed (not necessarily
immediately) by a non-separator character.  Separators in the trailing
separator run of a path are not counted. -/
def eSl : List Char → Nat
  | [] => 0
  | c :: rest => (if c = '/' ∧ rest.any (· ≠ '/') then 1 else 0) + eSl rest

/-- Whether the unread input starts with a path-element character. -/
def elemStart : List Char → Bool
  | [] => false
  | c :: _ => c ≠ '/'

/-- Accounting term for the separator `cleanLoop` may write before the next
element of the unread input. -/
def sepInd (rooted : Bool) (rem rout : List Char) : Nat :=
  if sepNeed rooted rout ∧ elemStart rem then 1 else 0

/-- Go `filepath.Clean` on `String`. -/
def goCleanStr (s : String) : String := String.mk (goClean s.toList)

/-- Go `filepath.Dir` on `String`. -/
def goDirStr (s : String) : String := String.mk (goDir s.toList)

/-- Go `filepath.Base` on `String`. -/
def goBaseStr (s : String) : String := String.mk (goBase s.toList)

/-- Go `filepath.Join` of two elements: join the nonempty elements with a
separator and `Clean` the result (empty if both elements are empty). -/
def goJoin (a b : String) : String :=
  if a ≠ "" then goCleanStr (a ++ "/" ++ b)
  else if b ≠ "" then goCleanStr b
  else ""

/- ### The watcher data model -/

/-- The subset of `go/build.Package` the watcher uses: `pkg.ImportPath`,
`pkg.Dir` and `pkg.Imports`. -/
structure Pkg where
  importPath : String
  dir : String
  imports : List String
  deriving DecidableEq, Repr

/-- An error value sent on the watcher Error channel, with the data the
source formats into the message. -/
inductive ErrItem where
  /-- `fmt.Errorf("Failed to find import path %s with error %s", importPath, err)` -/
  | importFail (importPath cause : String)
  /-- `fmt.Errorf("Error watching %s: %s", path, err)` -/
  | watchFail (path cause : String)
  /-- `fmt.Errorf("Got error when walking directory %s with entry %s and error %s", dir, path, err)` -/
  | walkFail (dir entry cause : String)
  deriving DecidableEq, Repr

/-- The state touched by `Watcher.WatchDirectory`: the `watchedDirectories`
set, the trace of `fsnotify.Watch` calls (`regs`), and the trace of sends on
the Error channel. -/
structure DirState where
  watchedDirectories : List String
  regs : List String
  errors : List ErrItem
  deriving DecidableEq, Repr

/-- A directory tree: the model of the filesystem subtree a walk traverses.
Children are listed in the order `filepath.Walk` enumerates them. -/
inductive FSNode where
  | file (name : String) : FSNode
  | dir (name : String) (children : List FSNode) : FSNode

/-- The entry name of a node (what `os.FileInfo.Name()` reports for it). -/
def FSNode.name : FSNode → String
  | .file n => n
  | .dir n _ => n

/-- The hidden-directory test of the walk closure:
`filepath.Base(info.Name())[0] == '.'`. -/
def hiddenName (name : String) : Bool :=
  (goBaseStr name).toList.head? = some '.'

/-- One call of the walk closure in `Watcher.WatchDirectory` on an entry with
path `path` and `info.Name() = name`, for the error-free case.  `wf dir` is
the result of `fsnotify.Watch dir` (`none` = success, `some cause` = error).
Returns the new state and whether `filepath.SkipDir` was returned. -/
def watchStep (wf : String → Option String) (ds : DirState) (path name : String)
    (isDir : Bool) : DirState × Bool :=
  if !isDir then (ds, false)
  else if hiddenName name then (ds, true)
  else if ds.watchedDirectories.contains path then (ds, false)
  else
    let ds1 : DirState :=
      { ds with
        regs := ds.regs ++ [path]
        errors := match wf path with
          | some cause => ds.errors ++ [ErrItem.watchFail path cause]
          | none => ds.errors }
    ({ ds1 with watchedDirectories := ds1.watchedDirectories ++ [path] }, false)

mutual

/-- `filepath.Walk`'s recursion over one node, running the `WatchDirectory`
closure.  `path` is the node path, `name` what `info.Name()` reports.
A `SkipDir` returned for a directory skips its children; for a file the
closure returns `nil` without touching the state. -/
def walkNode (wf : String → Option String) (ds : DirState) (path name : String) :
    FSNode → DirState
  | .file _ => ds
  | .dir _ children =>
    match watchStep wf ds path name true with
    | (ds1, true) => ds1
    | (ds1, false) => walkChildren wf ds1 path children

/-- `filepath.Walk`'s loop over the entries of a directory at `path`. -/
def walkChildren (wf : String → Option String) (ds : DirState) (path : String) :
    List FSNode → DirState
  | [] => ds
  | c :: cs => walkChildren wf (walkNode wf ds (goJoin path c.name) c.name c) path cs

end

/-- `Watcher.WatchDirectory dir`: return immediately if `dir` is already in
`watchedDirectories`, otherwise walk the tree rooted at `dir`.  `fs dir` is
the subtree found at `dir` (`Except.error cause` = the root `lstat` of the
walk fails, in which case the closure reports the walk error and the walk
ends).  The root `FileInfo.Name()` is `filepath.Base dir`. -/
def watchDirectory (wf : String → Option String) (fs : String → Except String FSNode)
    (ds : DirState) (dir : String) : DirState :=
  if ds.watchedDirectories.contains dir then ds
  else
    match fs dir with
    | .error cause => { ds with errors := ds.errors ++ [ErrItem.walkFail dir dir cause] }
    | .ok t => walkNode wf ds dir (goBaseStr dir) t

/-- Lookup in an association list (a Go map read `m[k]`). -/
def alGet {α : Type} (l : List (String × α)) (k : String) : Option α :=
  match l with
  | [] => none
  | (k', v) :: rest => if k' = k then some v else alGet rest k

/-- Insertion into an association list (a Go map write `m[k] = v`): replace
the binding if the key is present, otherwise append it. -/
def alSet {α : Type} (l : List (String × α)) (k : String) (v : α) : List (String × α) :=
  match l with
  | [] => [(k, v)]
  | (k', v') :: rest => if k' = k then (k, v) :: rest else (k', v') :: alSet rest k v

/-- The watcher state touched by `Watcher.WatchImportPath`: the two registry
indices, the trace of `build.Import` calls, and the `WatchDirectory` state. -/
structure WatchState where
  packages : List (String × Pkg)
  dirPackages : List (String × Pkg)
  resolves : List String
  ds : DirState
  deriving DecidableEq, Repr

/-- The state of a freshly constructed watcher: empty maps. -/
def initState : WatchState :=
  { packages := [], dirPackages := [], resolves := [], ds := ⟨[], [], []⟩ }

/-- The final loop of `Watcher.WatchImportPath`:
`for _, pkg := range w.Packages { w.WatchDirectory(pkg.Dir) }`
(map iteration modelled in insertion order). -/
def watchAllDirs (wf : String → Option String) (fs : String → Except String FSNode)
    (st : WatchState) : WatchState :=
  st.packages.foldl (fun s kv => { s with ds := watchDirectory wf fs s.ds kv.2.dir }) st

/-- `Watcher.WatchImportPath importPath`, with `res` the package resolver
(`go/build.Import` with the watcher working directory and `build.AllowBinary`).
The source recursion terminates because each recursive level first inserts a
package not yet in the registry; the `fuel` argument makes that recursion
structural and is irrelevant once it is at least the number of resolvable
packages plus one (claim theorems either hold for every fuel or exhibit the
fuel-independence explicitly). -/
def watchImportPath (res : String → Except String Pkg) (wf : String → Option String)
    (fs : String → Except String FSNode) : Nat → WatchState → String → WatchState
  | 0, st, _ => st
  | Nat.succ fuel, st, importPath =>
    if importPath = "C" then st
    else if (alGet st.packages importPath).isSome then st
    else
      match res importPath with
      | .error cause =>
        { st with
          resolves := st.resolves ++ [importPath]
          ds := { st.ds with errors := st.ds.errors ++ [ErrItem.importFail importPath cause] } }
      | .ok pkg =>
        let st1 : WatchState :=
          { st with
            resolves := st.resolves ++ [importPath]
            packages := alSet st.packages pkg.importPath pkg
            dirPackages := alSet st.dirPackages pkg.dir pkg }
        let st2 := pkg.imports.foldl (fun s ip => watchImportPath res wf fs fuel s ip) st1
        watchAllDirs wf fs st2

/-- The loop of the goroutine started by `NewWatcher`:
`for _, p := range importPaths { w.WatchImportPath(p) }`. -/
def watchAll (res : String → Except String Pkg) (wf : String → Option String)
    (fs : String → Except String FSNode) (fuel : Nat) (st : WatchState)
    (importPaths : List String) : WatchState :=
  importPaths.foldl (fun s p => watchImportPath res wf fs fuel s p) st

/-- A sequence of `WatchDirectory` calls. -/
def runWatchCalls (wf : String → Option String) (fs : String → Except String FSNode)
    (ds : DirState) (dirs : List String) : DirState :=
  dirs.foldl (watchDirectory wf fs) ds

mutual

/-- Modelled from the spec: the directories the walk is allowed to register,
rooted at `path` with entry name `name` — the root itself when it is a
non-hidden directory, together with the allowed directories of its children;
a hidden directory contributes nothing, so neither it nor any descendant of
it is ever listed. -/
def okPaths (path name : String) : FSNode → List String
  | .file _ => []
  | .dir _ children =>
    if hiddenName name then [] else path :: okPathsChildren path children

/-- Modelled from the spec: the allowed directories of a list of children. -/
def okPathsChildren (path : String) : List FSNode → List String
  | [] => []
  | c :: cs => okPaths (goJoin path c.name) c.name c ++ okPathsChildren path cs

end

/- ### `findPackage` (the event-proxy ancestry walk) -/

/-- The loop of `Watcher.findPackage`, structurally recursive on a fuel
argument.  `dp` is the `DirPackages` index.  `findPackage` below supplies
fuel that the unfolding theorem `findPackage_unfold` proves sufficient, so
this definition satisfies exactly the recurrence of the source loop
`for file != "." && file != "/" { ... file = filepath.Dir(file) }`. -/
def findPackageFuel (dp : String → Option Pkg) : Nat → String → Option Pkg
  | 0, _ => none
  | Nat.succ n, file =>
    if file = "." ∨ file = "/" then none
    else
      match dp file with
      | some pkg => some pkg
      | none => findPackageFuel dp n (goDirStr file)

/-- `Watcher.findPackage file`: walk `file`, `Dir file`, `Dir (Dir file)`, …
while the candidate is neither `"."` nor `"/"`, returning the first hit in
the `DirPackages` index. -/
def findPackage (dp : String → Option Pkg) (file : String) : Option Pkg :=
  findPackageFuel dp (slashes file.toList + 1) file

/-- Modelled from the spec: the candidate directories the ancestry walk
tests, nearest first (the path itself, then parent, grandparent, …, stopping
at the filesystem root or working-directory boundary). -/
def dirChainFuel : Nat → String → List String
  | 0, _ => []
  | Nat.succ n, file =>
    if file = "." ∨ file = "/" then []
    else file :: dirChainFuel n (goDirStr file)

/-- Modelled from the spec: the full candidate chain for a path. -/
def dirChain (file : String) : List String :=
  dirChainFuel (slashes file.toList + 1) file

/- ### `NewWatcher`, `Close` and the done channel -/

/-- A Go channel value: `nilc` is the zero value (a nil channel), `alloc` an
allocated channel. -/
inductive GoChan where
  | nilc : GoChan
  | alloc : GoChan
  deriving DecidableEq, Repr

/-- Go channel semantics: whether a send on the channel value can ever
complete.  A send on a nil channel blocks forever; a send on an allocated
unbuffered channel completes once a receiver is ready. -/
def GoChan.sendCanComplete : GoChan → Bool
  | .nilc => false
  | .alloc => true

/-- Go channel semantics: whether a receive on the channel value can ever
fire.  A receive on a nil channel blocks forever (a `select` case reading a
nil channel is never chosen). -/
def GoChan.recvCanFire : GoChan → Bool
  | .nilc => false
  | .alloc => true

/-- The `Watcher` struct fields assigned by `NewWatcher`, with the channels
that matter for the lifecycle claims. -/
structure WatcherModel where
  workingDirectory : String
  packages : List (String × Pkg)
  dirPackages : List (String × Pkg)
  watchedDirectories : List String
  eventChan : GoChan
  done : GoChan
  deriving DecidableEq, Repr

/-- `NewWatcher importPaths wd`: defaulting of the working directory
(`os.Getwd`, falling back to "/" on error), construction of the struct
literal — which does not list the `done` field, so `done` is the zero value
nil — and opening of the notifier (`fsnotify.NewWatcher`), whose failure is
returned with a nil watcher.  `getwd` is the result of `os.Getwd`;
`notifierOpen` the result of `fsnotify.NewWatcher`. -/
def newWatcher (getwd : Except Unit String) (notifierOpen : Except String Unit)
    (importPaths : List String) (wd : String) : Except String WatcherModel :=
  let wd1 := if wd = "" then (match getwd with | .ok d => d | .error _ => "/") else wd
  match notifierOpen with
  | .error e => .error e
  | .ok _ =>
    .ok { workingDirectory := wd1
          packages := []
          dirPackages := []
          watchedDirectories := []
          eventChan := .alloc
          done := .nilc }

/-- `Watcher.Close`: first `w.done <- true`, then `return w.fsnotify.Close()`.
The notifier is closed, and its close result returned, only if the send on
`w.done` completes; `none` means `Close` never returns. -/
def closeOutcome (w : WatcherModel) (notifierCloseResult : Option String) :
    Option (Option String) :=
  if w.done.sendCanComplete then some notifierCloseResult else none

/- ### Concrete instances used in examples and witnesses -/

/-- A package rooted at `/a`. -/
def pkgA : Pkg := { importPath := "a", dir := "/a", imports := [] }

/-- A package rooted at `/a/b`, nested under `pkgA`. -/
def pkgB : Pkg := { importPath := "b", dir := "/a/b", imports := [] }

/-- A `DirPackages` index holding both `/a` and `/a/b`. -/
def dpEx : String → Option Pkg :=
  fun d => if d = "/a/b" then some pkgB else if d = "/a" then some pkgA else none

/-- A package rooted at the filesystem root. -/
def pkgRoot : Pkg := { importPath := "r", dir := "/", imports := [] }

/-- A `DirPackages` index holding only the root-directory package. -/
def dpRoot : String → Option Pkg :=
  fun d => if d = "/" then some pkgRoot else none

/-- A resolver with the cyclic dependency graph `a -> b -> a`. -/
def resolverAB : String → Except String Pkg :=
  fun p =>
    if p = "a" then .ok { importPath := "a", dir := "/a", imports := ["b"] }
    else if p = "b" then .ok { importPath := "b", dir := "/b", imports := ["a"] }
    else .error "cannot find package"

/-- A resolver that resolves only `a`, with no imports. -/
def resolverA : String → Except String Pkg :=
  fun p => if p = "a" then .ok { importPath := "a", dir := "/a", imports := [] }
           else .error "cannot find package"

/-- A resolver that fails on every import path. -/
def resolverFail : String → Except String Pkg :=
  fun _ => .error "cannot find package"

/-- A notifier whose `Watch` calls all succeed. -/
def wfOk : String → Option String := fun _ => none

/-- A filesystem on which every root `lstat` fails (walks report an error
and touch nothing else). -/
def fsNone : String → Except String FSNode := fun _ => .error "lstat failed"

/-- A tree with a hidden `.git` subdirectory next to a visible one. -/
def treeGit : FSNode := .dir "r" [.dir ".git" [.dir "objects" []], .dir "sub" []]

/-- A filesystem holding `treeGit` at `/r`. -/
def fsGit : String → Except String FSNode :=
  fun d => if d = "/r" then .ok treeGit else .error "lstat failed"

/-- A tree whose root directory name is hidden. -/
def treeHidden : FSNode := .dir ".hid" [.dir "x" []]

/-- A filesystem holding `treeHidden` at `/p/.hid`. -/
def fsHidden : String → Except String FSNode :=
  fun d => if d = "/p/.hid" then .ok treeHidden else .error "lstat failed"

/-- The watcher struct that `newWatcher (.ok "/w") (.ok ()) [] ""` builds. -/
def sampleWatcher : WatcherModel :=
  { workingDirectory := "/w", packages := [], dirPackages := [],
    watchedDirectories := [], eventChan := .alloc, done := .nilc }

/- ### Path-layer lemmas -/

theorem copySeg_eq (l r : List Char) :
    copySeg l r = ((l.takeWhile (· ≠ '/')).reverse ++ r, l.dropWhile (· ≠ '/')) := by
  induction l generalizing r with
  | nil => simp [copySeg]
  | cons c rest ih =>
    by_cases hc : c = '/'
    · simp [copySeg, hc]
    · simp [copySeg, hc, ih (c :: r)]

theorem slashes_cons (c : Char) (l : List Char) :
    slashes (c :: l) = (if c = '/' then 1 else 0) + slashes l := by
  by_cases hc : c = '/' <;> simp [slashes, List.count_cons, hc, eq_comm] <;> omega

theorem slashes_append (l1 l2 : List Char) :
    slashes (l1 ++ l2) = slashes l1 + slashes l2 := by
  simp [slashes, List.count_append]

theorem slashes_reverse (l : List Char) : slashes l.reverse = slashes l := by
  simp [slashes, List.count_reverse]

theorem eSl_cons_ne {c : Char} (l : List Char) (hc : c ≠ '/') :
    eSl (c :: l) = eSl l := by
  simp [eSl, hc]

theorem elemStart_any {l : List Char} (h : elemStart l = true) :
    l.any (· ≠ '/') = true := by
  cases l with
  | nil => simp [elemStart] at h
  | cons c t =>
    simp only [elemStart, decide_eq_true_eq] at h
    simp [List.any_cons, h]

theorem eSl_dropWhile (l : List Char) : eSl (l.dropWhile (· ≠ '/')) = eSl l := by
  induction l with
  | nil => simp
  | cons c t ih =>
    by_cases hc : c = '/'
    · rw [List.dropWhile_cons, if_neg (by simp [hc])]
    · rw [List.dropWhile_cons, if_pos (by simp [hc]), eSl_cons_ne _ hc]
      exact ih

theorem elemStart_dropWhile (l : List Char) :
    elemStart (l.dropWhile (· ≠ '/')) = false := by
  induction l with
  | nil => simp [elemStart]
  | cons c t ih =>
    by_cases hc : c = '/'
    · rw [List.dropWhile_cons, if_neg (by simp [hc])]
      simp [elemStart, hc]
    · rw [List.dropWhile_cons, if_pos (by simp [hc])]
      exact ih

theorem slashes_segBacktrack_le (d : Nat) (l : List Char) :
    slashes (segBacktrack d l) ≤ slashes l := by
  induction l with
  | nil => simp [segBacktrack]
  | cons c t ih =>
    simp only [segBacktrack]
    have h1 : slashes t ≤ slashes (c :: t) := by rw [slashes_cons]; omega
    split
    · exact le_trans ih h1
    · exact h1

theorem eSl_le_slashes (l : List Char) : eSl l ≤ slashes l := by
  induction l with
  | nil => simp [eSl, slashes]
  | cons c t ih =>
    by_cases hc : c = '/'
    · subst hc
      have he : eSl ('/' :: t) = (if t.any (· ≠ '/') = true then 1 else 0) + eSl t := by
        simp [eSl]
      rw [he, slashes_cons, if_pos rfl]
      split <;> omega
    · rw [eSl_cons_ne _ hc, slashes_cons, if_neg hc]
      omega

theorem eSl_add_one_le {l : List Char} (h : l.getLast? = some '/') :
    eSl l + 1 ≤ slashes l := by
  induction l with
  | nil => simp at h
  | cons c t ih =>
    cases t with
    | nil =>
      simp [List.getLast?] at h
      subst h
      simp [eSl, slashes_cons, slashes]
    | cons d u =>
      rw [List.getLast?_cons_cons] at h
      have h2 := ih h
      have h3 := eSl_le_slashes (d :: u)
      by_cases hc : c = '/'
      · subst hc
        have he : eSl ('/' :: d :: u) =
            (if (d :: u).any (· ≠ '/') = true then 1 else 0) + eSl (d :: u) := by
          simp [eSl]
        rw [he, slashes_cons, if_pos rfl]
        split <;> omega
      · rw [eSl_cons_ne _ hc, slashes_cons, if_neg hc]
        omega

theorem slashes_takeWhile (l : List Char) : slashes (l.takeWhile (· ≠ '/')) = 0 := by
  rw [slashes, List.count_eq_zero]
  intro hmem
  have h1 := List.mem_takeWhile_imp hmem
  simp at h1

theorem cleanLoop_slashes (rooted : Bool) (rem rout : List Char) (dotdot : Nat) :
    slashes (cleanLoop rooted rem rout dotdot) ≤
      slashes rout + eSl rem + sepInd rooted rem rout := by
  induction rem, rout, dotdot using cleanLoop.induct rooted with
  | case1 rout dotdot =>
    simp [cleanLoop, eSl, sepInd, elemStart]
  | case2 rout dotdot rest ih =>
    rw [cleanLoop]
    simp only [if_pos rfl]
    refine le_trans ih ?_
    have h1 : eSl ('/' :: rest) = (if rest.any (· ≠ '/') then 1 else 0) + eSl rest := by
      simp [eSl]
    simp only [sepInd, h1]
    by_cases h2 : elemStart rest = true
    · rw [elemStart_any h2]
      split <;> split <;> simp_all <;> omega
    · simp only [eq_false_of_ne_true h2, and_false, if_false]
      split <;> split <;> simp_all <;> omega
  | case3 rout dotdot c rest hc hdot ih =>
    rw [cleanLoop]
    rw [if_neg hc, if_pos hdot]
    refine le_trans ih ?_
    have h1 : eSl (c :: rest) = eSl rest := eSl_cons_ne _ hc
    have h2 : elemStart rest = false := by
      rcases hdot.2 with h | h
      · simp [h, elemStart]
      · cases rest with
        | nil => simp [elemStart]
        | cons d u => simp at h; simp [h, elemStart]
    simp only [sepInd, h1, h2]
    simp
  | case4 rout dotdot c rest hc hdot hdd hgt ih =>
    rw [cleanLoop]
    rw [if_neg hc, if_neg hdot, if_pos hdd, if_pos hgt]
    refine le_trans ih ?_
    have h1 : eSl (c :: rest) = eSl rest := eSl_cons_ne _ hc
    have h1t : eSl rest = eSl rest.tail := by
      cases rest with
      | nil => simp
      | cons d u =>
        have hd : d = '.' := by simpa using hdd.2.1
        simp [hd, eSl]
    have h2 : elemStart rest.tail = false := by
      rcases hdd.2.2 with h | h
      · simp [h, elemStart]
      · cases h3 : rest.tail with
        | nil => simp [elemStart]
        | cons d u => rw [h3] at h; simp at h; simp [h, elemStart]
    have h4 := slashes_segBacktrack_le dotdot rout
    have hz : sepInd rooted rest.tail (segBacktrack dotdot rout) = 0 := by
      simp [sepInd, h2]
    rw [hz, h1, h1t]
    omega
  | case5 rout dotdot c rest hc hdot hdd hle hroot rout1 ih =>
    rw [cleanLoop, if_neg hc, if_neg hdot, if_pos hdd, if_neg hle, if_pos hroot]
    refine le_trans ih ?_
    have hr1 : rout1 = if rout.length > 0 then '/' :: rout else rout := rfl
    have h1 : eSl (c :: rest) = eSl rest := eSl_cons_ne _ hc
    have h1t : eSl rest = eSl rest.tail := by
      cases rest with
      | nil => simp
      | cons d u =>
        have hd : d = '.' := by simpa using hdd.2.1
        simp [hd, eSl]
    have h2 : elemStart rest.tail = false := by
      rcases hdd.2.2 with h | h
      · simp [h, elemStart]
      · cases h3 : rest.tail with
        | nil => simp [elemStart]
        | cons d u => rw [h3] at h; simp at h; simp [h, elemStart]
    have hrooted : rooted = false := by
      cases rooted <;> simp_all
    have hstart : elemStart (c :: rest) = true := by
      simp [elemStart, hc]
    have hz : sepInd rooted rest.tail ('.' :: '.' :: rout1) = 0 := by
      simp [sepInd, h2]
    rw [hz, h1, h1t, hr1]
    by_cases hw : rout.length > 0
    · rw [if_pos hw]
      have hslash : slashes ('.' :: '.' :: '/' :: rout) = 1 + slashes rout := by
        simp [slashes_cons]
      have hI : sepInd rooted (c :: rest) rout = 1 := by
        have hne : rout.length ≠ 0 := by omega
        simp [sepInd, sepNeed, hrooted, hstart, hne]
      rw [hslash, hI]
      omega
    · rw [if_neg hw]
      have hslash : slashes ('.' :: '.' :: rout) = slashes rout := by
        simp [slashes_cons]
      rw [hslash]
      omega
  | case6 rout dotdot c rest hc hdot hdd hle hroot ih =>
    rw [cleanLoop]
    rw [if_neg hc, if_neg hdot, if_pos hdd, if_neg hle, if_neg hroot]
    refine le_trans ih ?_
    have h1 : eSl (c :: rest) = eSl rest := eSl_cons_ne _ hc
    have h1t : eSl rest = eSl rest.tail := by
      cases rest with
      | nil => simp
      | cons d u =>
        have hd : d = '.' := by simpa using hdd.2.1
        simp [hd, eSl]
    have h2 : elemStart rest.tail = false := by
      rcases hdd.2.2 with h | h
      · simp [h, elemStart]
      · cases h3 : rest.tail with
        | nil => simp [elemStart]
        | cons d u => rw [h3] at h; simp at h; simp [h, elemStart]
    have hz : sepInd rooted rest.tail rout = 0 := by
      simp [sepInd, h2]
    rw [hz, h1, h1t]
    omega
  | case7 rout dotdot c rest hc hdot hdd rout1 ih =>
    simp only [cleanLoop, if_neg hc, if_neg hdot, if_neg hdd]
    refine le_trans ih ?_
    have hr1 : rout1 = if sepNeed rooted rout = true then '/' :: rout else rout := rfl
    have hstart : elemStart (c :: rest) = true := by
      simp [elemStart, hc]
    have hdrop : eSl (copySeg (c :: rest) rout1).2 = eSl (c :: rest) := by
      rw [copySeg_eq]
      exact eSl_dropWhile (c :: rest)
    have hstart2 : elemStart (copySeg (c :: rest) rout1).2 = false := by
      rw [copySeg_eq]
      exact elemStart_dropWhile (c :: rest)
    have hz : sepInd rooted (copySeg (c :: rest) rout1).2 (copySeg (c :: rest) rout1).1 = 0 := by
      simp [sepInd, hstart2]
    have hsl : slashes (copySeg (c :: rest) rout1).1
        = slashes rout + (if sepNeed rooted rout = true then 1 else 0) := by
      have hp : (((c :: rest).takeWhile (· ≠ '/')).reverse ++ rout1,
          (c :: rest).dropWhile (· ≠ '/')).1
          = ((c :: rest).takeWhile (· ≠ '/')).reverse ++ rout1 := rfl
      rw [copySeg_eq, hp, slashes_append, slashes_reverse, slashes_takeWhile, hr1]
      by_cases hs : sepNeed rooted rout = true
      · simp [hs, slashes_cons, Nat.add_comm]
      · simp [hs]
    have hI : sepInd rooted (c :: rest) rout
        = (if sepNeed rooted rout = true then 1 else 0) := by
      simp [sepInd, hstart]
    rw [hz, hdrop, hsl, hI]
    omega

theorem slashes_dropWhile_ne (l : List Char) :
    slashes (l.dropWhile (· ≠ '/')) = slashes l := by
  induction l with
  | nil => simp
  | cons c t ih =>
    by_cases hc : c = '/'
    · rw [List.dropWhile_cons, if_neg (by simp [hc])]
    · rw [List.dropWhile_cons, if_pos (by simp [hc]), ih, slashes_cons, if_neg hc]
      omega

theorem slashes_dropAfterLastSep (p : List Char) :
    slashes (dropAfterLastSep p) = slashes p := by
  rw [dropAfterLastSep, slashes_reverse, slashes_dropWhile_ne, slashes_reverse]

theorem head?_dropWhile_ne (l : List Char) :
    (l.dropWhile (· ≠ '/')).head? = none ∨ (l.dropWhile (· ≠ '/')).head? = some '/' := by
  induction l with
  | nil => simp
  | cons c t ih =>
    by_cases hc : c = '/'
    · rw [List.dropWhile_cons, if_neg (by simp [hc])]
      right
      simp [hc]
    · rw [List.dropWhile_cons, if_pos (by simp [hc])]
      exact ih

theorem dropAfterLastSep_getLast (p : List Char) (h : dropAfterLastSep p ≠ []) :
    (dropAfterLastSep p).getLast? = some '/' := by
  rw [dropAfterLastSep, List.getLast?_reverse]
  rcases head?_dropWhile_ne p.reverse with h1 | h1
  · exfalso
    apply h
    rw [dropAfterLastSep, List.head?_eq_none_iff.mp h1]
    rfl
  · exact h1

theorem goDir_slashes (p : List Char) :
    goDir p = ['.'] ∨ goDir p = ['/'] ∨ slashes (goDir p) + 1 ≤ slashes p := by
  by_cases hq : dropAfterLastSep p = []
  · left
    simp [goDir, hq, goClean]
  · have hlast := dropAfterLastSep_getLast p hq
    have hslq : slashes (dropAfterLastSep p) = slashes p := slashes_dropAfterLastSep p
    by_cases hr : (dropAfterLastSep p).head? = some '/'
    · rcases List.exists_cons_of_ne_nil hq with ⟨a, t, hat⟩
      have ha : a = '/' := by rw [hat] at hr; simpa using hr
      subst ha
      cases t with
      | nil =>
        right; left
        simp [goDir, hat, goClean, cleanLoop]
      | cons d u =>
        have htail : (d :: u).getLast? = some '/' := by
          rw [hat, List.getLast?_cons_cons] at hlast
          exact hlast
        have hE := eSl_add_one_le htail
        have hbound := cleanLoop_slashes true (d :: u) ['/'] 1
        have hz : sepInd true (d :: u) ['/'] = 0 := by simp [sepInd, sepNeed]
        have hso : slashes ['/'] = 1 := by simp [slashes]
        rw [hz, hso] at hbound
        have hq1 : slashes (dropAfterLastSep p) = 1 + slashes (d :: u) := by
          rw [hat, slashes_cons]
          simp
        have hgc : goDir p = if cleanLoop true (d :: u) ['/'] 1 = [] then ['.']
            else (cleanLoop true (d :: u) ['/'] 1).reverse := by
          rw [goDir, hat]
          simp [goClean]
        rw [hgc]
        by_cases hrn : cleanLoop true (d :: u) ['/'] 1 = []
        · rw [if_pos hrn]
          exact Or.inl rfl
        · rw [if_neg hrn]
          right; right
          rw [slashes_reverse]
          have hsp : slashes p = 1 + slashes (d :: u) := by rw [← hslq, hq1]
          omega
    · have hbound := cleanLoop_slashes false (dropAfterLastSep p) [] 0
      have hz : sepInd false (dropAfterLastSep p) [] = 0 := by simp [sepInd, sepNeed]
      have hE := eSl_add_one_le hlast
      rw [hz] at hbound
      have h0 : slashes ([] : List Char) = 0 := rfl
      rw [h0] at hbound
      simp only [goDir, goClean, if_neg hq, if_neg hr]
      by_cases hrn : cleanLoop false (dropAfterLastSep p) [] 0 = []
      · simp [hrn]
      · right; right
        simp only [hrn, if_false, slashes_reverse, reduceCtorEq, ite_false]
        omega

theorem findPackageFuel_terminal (dp : String → Option Pkg) (file : String)
    (h : file = "." ∨ file = "/") : ∀ k, findPackageFuel dp k file = none := by
  intro k
  cases k with
  | zero => rfl
  | succ n => rw [findPackageFuel, if_pos h]

theorem toList_goDirStr (s : String) : (goDirStr s).toList = goDir s.toList := rfl

theorem goDirStr_cases (s : String) :
    goDirStr s = "." ∨ goDirStr s = "/" ∨
      slashes (goDirStr s).toList + 1 ≤ slashes s.toList := by
  rcases goDir_slashes s.toList with h | h | h
  · left
    have h2 : goDirStr s = String.mk (goDir s.toList) := rfl
    rw [h2, h]
  · right; left
    have h2 : goDirStr s = String.mk (goDir s.toList) := rfl
    rw [h2, h]
  · right; right
    rw [toList_goDirStr]
    exact h

theorem findPackageFuel_stable (dp : String → Option Pkg) (n : Nat) :
    ∀ file, slashes file.toList + 1 ≤ n →
      findPackageFuel dp n file = findPackage dp file := by
  induction n using Nat.strong_induction_on with
  | _ n ih =>
    intro file hn
    cases n with
    | zero => omega
    | succ m =>
      rw [findPackage]
      by_cases ht : file = "." ∨ file = "/"
      · rw [findPackageFuel_terminal dp file ht, findPackageFuel_terminal dp file ht]
      · rw [findPackageFuel, findPackageFuel, if_neg ht, if_neg ht]
        cases hdp : dp file with
        | some pkg => rfl
        | none =>
          rcases goDirStr_cases file with hc | hc | hc
          · rw [findPackageFuel_terminal dp _ (Or.inl hc),
              findPackageFuel_terminal dp _ (Or.inl hc)]
          · rw [findPackageFuel_terminal dp _ (Or.inr hc),
              findPackageFuel_terminal dp _ (Or.inr hc)]
          · have h1 : slashes (goDirStr file).toList + 1 ≤ m := by omega
            have h2 : slashes (goDirStr file).toList + 1 ≤ slashes file.toList := hc
            rw [ih m (by omega) (goDirStr file) h1,
              ih (slashes file.toList) (by omega) (goDirStr file) h2]

/-- `findPackage` satisfies exactly the recurrence of the loop in
`Watcher.findPackage` (pkgwatcher.go lines 126-135): test the path while it
is neither "." nor "/", otherwise recurse on `filepath.Dir` of it. -/
theorem findPackage_unfold (dp : String → Option Pkg) (file : String) :
    findPackage dp file =
      if file = "." ∨ file = "/" then none
      else
        match dp file with
        | some pkg => some pkg
        | none => findPackage dp (goDirStr file) := by
  rw [findPackage, findPackageFuel]
  by_cases ht : file = "." ∨ file = "/"
  · rw [if_pos ht, if_pos ht]
  · rw [if_neg ht, if_neg ht]
    cases hdp : dp file with
    | some pkg => rfl
    | none =>
      rcases goDirStr_cases file with hc | hc | hc
      · rw [findPackageFuel_terminal dp _ (Or.inl hc)]
        rw [findPackage, findPackageFuel_terminal dp _ (Or.inl hc)]
      · rw [findPackageFuel_terminal dp _ (Or.inr hc)]
        rw [findPackage, findPackageFuel_terminal dp _ (Or.inr hc)]
      · exact findPackageFuel_stable dp (slashes file.toList) (goDirStr file) hc

theorem findPackageFuel_eq_chain (dp : String → Option Pkg) :
    ∀ n file, findPackageFuel dp n file = (dirChainFuel n file).findSome? dp := by
  intro n
  induction n with
  | zero => intro file; rfl
  | succ m ih =>
    intro file
    rw [findPackageFuel, dirChainFuel]
    by_cases ht : file = "." ∨ file = "/"
    · rw [if_pos ht, if_pos ht]
      rfl
    · rw [if_neg ht, if_neg ht, List.findSome?_cons]
      cases hdp : dp file with
      | some pkg => rfl
      | none => simp [ih]

/-- C2: owning-package resolution walks up the directory ancestry of the
event path (the path, its parent, grandparent, …), testing each candidate
against the `DirPackages` index, and returns the first (deepest/nearest)
match; with both `/a` and `/a/b` registered, an event under `/a/b/c`
resolves to the package rooted at `/a/b`; with no registered ancestor it
resolves to no package. -/
theorem claim2_findPackage_ancestry :
    (∀ dp file, findPackage dp file = (dirChain file).findSome? dp)
  ∧ findPackage dpEx "/a/b/c" = some pkgB
  ∧ findPackage dpEx "/x/y/file.go" = none := by
  refine ⟨fun dp file => findPackageFuel_eq_chain dp _ file, ?_, ?_⟩
  · simp [findPackage, findPackageFuel, slashes, dpEx, goDirStr, goDir, goClean, cleanLoop,
      copySeg, segBacktrack, sepNeed, dropAfterLastSep, pkgA, pkgB]
  · simp [findPackage, findPackageFuel, slashes, dpEx, goDirStr, goDir, goClean, cleanLoop,
      copySeg, segBacktrack, sepNeed, dropAfterLastSep, pkgA, pkgB]

/-- C9: a package registered only under the directory "/" (or "."), the
loop boundary values of `findPackage`, is never returned by the lookup: the
loop condition stops before those candidates are tested. -/
theorem claim9_root_package_unreachable (dp : String → Option Pkg) (pkg : Pkg)
    (h : ∀ d, dp d = some pkg → d = "." ∨ d = "/") :
    ∀ file, findPackage dp file ≠ some pkg := by
  intro file
  rw [findPackage]
  generalize slashes file.toList + 1 = n
  induction n generalizing file with
  | zero => simp [findPackageFuel]
  | succ m ih =>
    rw [findPackageFuel]
    by_cases ht : file = "." ∨ file = "/"
    · simp [ht]
    · rw [if_neg ht]
      cases hdp : dp file with
      | some q =>
        intro hq
        have hqp : q = pkg := by injection hq
        subst hqp
        exact ht (h file hdp)
      | none => exact ih (goDirStr file)

/-- Witness for C9 at the index `dpRoot`, which registers `pkgRoot` at "/". -/
theorem claim9_witness : findPackage dpRoot "/etc/x" ≠ some pkgRoot :=
  claim9_root_package_unreachable dpRoot pkgRoot
    (by
      intro d hd
      by_cases h : d = "/"
      · exact Or.inr h
      · simp [dpRoot, h] at hd)
    "/etc/x"

/- ### Walk lemmas -/

theorem watchStep_cases (wf : String → Option String) (ds : DirState)
    (path name : String) (b : Bool) :
    watchStep wf ds path name b = (ds, false)
  ∨ (watchStep wf ds path name b = (ds, true) ∧ hiddenName name = true)
  ∨ (watchStep wf ds path name b =
      ({ ds with
          regs := ds.regs ++ [path]
          errors := match wf path with
            | some cause => ds.errors ++ [ErrItem.watchFail path cause]
            | none => ds.errors
          watchedDirectories := ds.watchedDirectories ++ [path] }, false)
      ∧ path ∉ ds.watchedDirectories) := by
  rw [watchStep]
  by_cases h1 : (!b) = true
  · rw [if_pos h1]
    exact Or.inl rfl
  · rw [if_neg h1]
    by_cases h2 : hiddenName name = true
    · rw [if_pos h2]
      exact Or.inr (Or.inl ⟨rfl, h2⟩)
    · rw [if_neg h2]
      by_cases h3 : ds.watchedDirectories.contains path = true
      · rw [if_pos h3]
        exact Or.inl rfl
      · rw [if_neg h3]
        refine Or.inr (Or.inr ⟨rfl, fun hm => h3 (List.elem_iff.mpr hm)⟩)

theorem watchStep_hidden (wf : String → Option String) (ds : DirState)
    (path name : String) (h : hiddenName name = true) :
    watchStep wf ds path name true = (ds, true) := by
  rw [watchStep]
  rw [if_neg (by simp), if_pos h]

theorem walkNode_hidden (wf : String → Option String) (ds : DirState)
    (path name nm : String) (cs : List FSNode) (h : hiddenName name = true) :
    walkNode wf ds path name (FSNode.dir nm cs) = ds := by
  rw [walkNode, watchStep_hidden wf ds path name h]

theorem watchStep_pres (wf : String → Option String) (ds : DirState)
    (path name : String) (b : Bool)
    (h : ds.regs.Nodup ∧ ∀ p ∈ ds.regs, p ∈ ds.watchedDirectories) :
    ((watchStep wf ds path name b).1.regs.Nodup
      ∧ ∀ p ∈ (watchStep wf ds path name b).1.regs,
          p ∈ (watchStep wf ds path name b).1.watchedDirectories)
    ∧ ∀ q ∈ ds.watchedDirectories, q ∈ (watchStep wf ds path name b).1.watchedDirectories := by
  rcases watchStep_cases wf ds path name b with hc | ⟨hc, _⟩ | ⟨hc, hnm⟩ <;> rw [hc]
  · exact ⟨h, fun q hq => hq⟩
  · exact ⟨h, fun q hq => hq⟩
  · have hpn : path ∉ ds.regs := fun hm => hnm (h.2 path hm)
    refine ⟨⟨?_, ?_⟩, ?_⟩
    · simp only [List.nodup_append, List.nodup_cons, List.nodup_nil, and_true,
        List.disjoint_singleton]
      exact ⟨h.1, by simpa using hpn⟩
    · intro p hp
      simp only [List.mem_append, List.mem_singleton] at hp ⊢
      rcases hp with hp | hp
      · exact Or.inl (h.2 p hp)
      · exact Or.inr hp
    · intro q hq
      simp only [List.mem_append, List.mem_singleton]
      exact Or.inl hq

theorem walk_pres (wf : String → Option String) :
    ∀ (ds : DirState) (path name : String) (t : FSNode),
      (ds.regs.Nodup ∧ ∀ p ∈ ds.regs, p ∈ ds.watchedDirectories) →
      (((walkNode wf ds path name t).regs.Nodup
        ∧ ∀ p ∈ (walkNode wf ds path name t).regs,
            p ∈ (walkNode wf ds path name t).watchedDirectories)
      ∧ ∀ q ∈ ds.watchedDirectories, q ∈ (walkNode wf ds path name t).watchedDirectories) := by
  refine walkNode.induct wf
    (fun ds path name t =>
      (ds.regs.Nodup ∧ ∀ p ∈ ds.regs, p ∈ ds.watchedDirectories) →
      (((walkNode wf ds path name t).regs.Nodup
        ∧ ∀ p ∈ (walkNode wf ds path name t).regs,
            p ∈ (walkNode wf ds path name t).watchedDirectories)
      ∧ ∀ q ∈ ds.watchedDirectories, q ∈ (walkNode wf ds path name t).watchedDirectories))
    (fun ds path cs =>
      (ds.regs.Nodup ∧ ∀ p ∈ ds.regs, p ∈ ds.watchedDirectories) →
      (((walkChildren wf ds path cs).regs.Nodup
        ∧ ∀ p ∈ (walkChildren wf ds path cs).regs,
            p ∈ (walkChildren wf ds path cs).watchedDirectories)
      ∧ ∀ q ∈ ds.watchedDirectories, q ∈ (walkChildren wf ds path cs).watchedDirectories))
    ?_ ?_ ?_ ?_ ?_
  · intro ds path name n h
    rw [walkNode]
    exact ⟨h, fun q hq => hq⟩
  · intro ds path name n children ds1 hstep h
    have h1 : walkNode wf ds path name (FSNode.dir n children) = ds1 := by
      rw [walkNode, hstep]
    have h2 : ds1 = (watchStep wf ds path name true).1 := by rw [hstep]
    have h3 := watchStep_pres wf ds path name true h
    rw [h1, h2]
    exact h3
  · intro ds path name n children ds1 hstep ih h
    have h1 : walkNode wf ds path name (FSNode.dir n children) =
        walkChildren wf ds1 path children := by
      rw [walkNode, hstep]
    have h2 : ds1 = (watchStep wf ds path name true).1 := by rw [hstep]
    have h3 := watchStep_pres wf ds path name true h
    rw [← h2] at h3
    have h4 := ih h3.1
    rw [h1]
    exact ⟨h4.1, fun q hq => h4.2 q (h3.2 q hq)⟩
  · intro ds path h
    rw [walkChildren]
    exact ⟨h, fun q hq => hq⟩
  · intro ds path c cs ih1 ih2 h
    have h1 := ih1 h
    have h2 := ih2 h1.1
    rw [walkChildren]
    exact ⟨h2.1, fun q hq => h2.2 q (h1.2 q hq)⟩

theorem watchDirectory_pres (wf : String → Option String)
    (fs : String → Except String FSNode) (ds : DirState) (dir : String)
    (h : ds.regs.Nodup ∧ ∀ p ∈ ds.regs, p ∈ ds.watchedDirectories) :
    (((watchDirectory wf fs ds dir).regs.Nodup
      ∧ ∀ p ∈ (watchDirectory wf fs ds dir).regs,
          p ∈ (watchDirectory wf fs ds dir).watchedDirectories)
    ∧ ∀ q ∈ ds.watchedDirectories, q ∈ (watchDirectory wf fs ds dir).watchedDirectories) := by
  rw [watchDirectory]
  by_cases h1 : ds.watchedDirectories.contains dir = true
  · rw [if_pos h1]
    exact ⟨h, fun q hq => hq⟩
  · rw [if_neg h1]
    cases hfs : fs dir with
    | error cause => exact ⟨h, fun q hq => hq⟩
    | ok t => exact walk_pres wf ds dir (goBaseStr dir) t h

/-- C6: across any sequence of `WatchDirectory` calls from the initial
(empty) state, each directory is passed to `fsnotify.Watch` at most once
(`regs` has no duplicates), and every directory for which a registration was
attempted — including failing ones — is in `watchedDirectories`, so it is
never retried. -/
theorem claim6_register_at_most_once (wf : String → Option String)
    (fs : String → Except String FSNode) (dirs : List String) :
    (runWatchCalls wf fs ⟨[], [], []⟩ dirs).regs.Nodup
    ∧ ∀ p ∈ (runWatchCalls wf fs ⟨[], [], []⟩ dirs).regs,
        p ∈ (runWatchCalls wf fs ⟨[], [], []⟩ dirs).watchedDirectories := by
  have main : ∀ (l : List String) (ds : DirState),
      (ds.regs.Nodup ∧ ∀ p ∈ ds.regs, p ∈ ds.watchedDirectories) →
      ((runWatchCalls wf fs ds l).regs.Nodup
        ∧ ∀ p ∈ (runWatchCalls wf fs ds l).regs,
            p ∈ (runWatchCalls wf fs ds l).watchedDirectories) := by
    intro l
    induction l with
    | nil => intro ds h; exact h
    | cons d rest ih =>
      intro ds h
      have h1 := watchDirectory_pres wf fs ds d h
      exact ih (watchDirectory wf fs ds d) h1.1
  exact main dirs ⟨[], [], []⟩ ⟨List.nodup_nil, by simp⟩

theorem walk_okPaths (wf : String → Option String) :
    ∀ (ds : DirState) (path name : String) (t : FSNode),
      ∀ p ∈ (walkNode wf ds path name t).regs,
        p ∈ ds.regs ∨ p ∈ okPaths path name t := by
  refine walkNode.induct wf
    (fun ds path name t =>
      ∀ p ∈ (walkNode wf ds path name t).regs, p ∈ ds.regs ∨ p ∈ okPaths path name t)
    (fun ds path cs =>
      ∀ p ∈ (walkChildren wf ds path cs).regs,
        p ∈ ds.regs ∨ p ∈ okPathsChildren path cs)
    ?_ ?_ ?_ ?_ ?_
  · intro ds path name n p hp
    rw [walkNode] at hp
    exact Or.inl hp
  · intro ds path name n children ds1 hstep p hp
    have h1 : walkNode wf ds path name (FSNode.dir n children) = ds1 := by
      rw [walkNode, hstep]
    rcases watchStep_cases wf ds path name true with hc | ⟨hc, _⟩ | ⟨hc, _⟩ <;>
      rw [hstep] at hc
    · exact absurd (congrArg Prod.snd hc.symm) (by simp)
    · have : ds1 = ds := congrArg Prod.fst hc
      rw [h1, this] at hp
      exact Or.inl hp
    · exact absurd (congrArg Prod.snd hc) (by simp)
  · intro ds path name n children ds1 hstep ih p hp
    have h1 : walkNode wf ds path name (FSNode.dir n children) =
        walkChildren wf ds1 path children := by
      rw [walkNode, hstep]
    have hhid : hiddenName name = false := by
      by_cases hh : hiddenName name = true
      · have := watchStep_hidden wf ds path name hh
        rw [hstep] at this
        exact absurd (congrArg Prod.snd this) (by simp)
      · simpa using hh
    have hreg : ds1.regs = ds.regs ∨ ds1.regs = ds.regs ++ [path] := by
      rcases watchStep_cases wf ds path name true with hc | ⟨hc, _⟩ | ⟨hc, _⟩ <;>
        rw [hstep] at hc
      · exact Or.inl (congrArg DirState.regs (congrArg Prod.fst hc))
      · exact Or.inl (congrArg DirState.regs (congrArg Prod.fst hc))
      · exact Or.inr (congrArg DirState.regs (congrArg Prod.fst hc))
    rw [h1] at hp
    rcases ih p hp with hin | hin
    · rcases hreg with hr | hr <;> rw [hr] at hin
      · exact Or.inl hin
      · rcases List.mem_append.mp hin with hm | hm
        · exact Or.inl hm
        · right
          rw [okPaths, if_neg (by simp [hhid])]
          simp only [List.mem_cons]
          exact Or.inl (List.mem_singleton.mp hm)
    · right
      rw [okPaths, if_neg (by simp [hhid])]
      exact List.mem_cons_of_mem path hin
  · intro ds path p hp
    rw [walkChildren] at hp
    exact Or.inl hp
  · intro ds path c cs ih1 ih2 p hp
    rw [walkChildren] at hp
    rcases ih2 p hp with hin | hin
    · rcases ih1 p hin with hin2 | hin2
      · exact Or.inl hin2
      · right
        rw [okPathsChildren]
        exact List.mem_append.mpr (Or.inl hin2)
    · right
      rw [okPathsChildren]
      exact List.mem_append.mpr (Or.inr hin)

/-- C7: a directory whose base name starts with '.' is never registered and
the walk does not descend into it.  First conjunct: reaching a hidden
directory leaves the walk state untouched (nothing below it is visited or
registered).  Second conjunct: every path registered by a `WatchDirectory`
call was already registered before, or is listed by `okPaths`, which by
construction excludes hidden directories and all their descendants. -/
theorem claim7_hidden_excluded :
    (∀ (wf : String → Option String) (ds : DirState) (path name nm : String)
        (cs : List FSNode), hiddenName name = true →
        walkNode wf ds path name (FSNode.dir nm cs) = ds)
  ∧ (∀ (wf : String → Option String) (fs : String → Except String FSNode)
        (ds : DirState) (dir p : String),
        p ∈ (watchDirectory wf fs ds dir).regs →
        p ∈ ds.regs ∨ ∃ t, fs dir = .ok t ∧ p ∈ okPaths dir (goBaseStr dir) t) := by
  constructor
  · intro wf ds path name nm cs h
    exact walkNode_hidden wf ds path name nm cs h
  · intro wf fs ds dir p hp
    rw [watchDirectory] at hp
    by_cases h1 : ds.watchedDirectories.contains dir = true
    · rw [if_pos h1] at hp
      exact Or.inl hp
    · rw [if_neg h1] at hp
      cases hfs : fs dir with
      | error cause =>
        rw [hfs] at hp
        exact Or.inl hp
      | ok t =>
        rw [hfs] at hp
        rcases walk_okPaths wf ds dir (goBaseStr dir) t p hp with hin | hin
        · exact Or.inl hin
        · exact Or.inr ⟨t, rfl, hin⟩

/-- Witness for C7: the hidden `.git` subtree of `treeGit` is skipped
untouched, and the registered path `/r` of the concrete walk is accounted
for by `okPaths`. -/
theorem claim7_witness :
    walkNode wfOk ⟨[], [], []⟩ "/r/.git" ".git" (FSNode.dir ".git" [FSNode.dir "objects" []])
      = (⟨[], [], []⟩ : DirState)
  ∧ ("/r" ∈ (⟨[], [], []⟩ : DirState).regs
      ∨ ∃ t, fsGit "/r" = .ok t ∧ "/r" ∈ okPaths "/r" (goBaseStr "/r") t) := by
  constructor
  · exact claim7_hidden_excluded.1 wfOk ⟨[], [], []⟩ "/r/.git" ".git" ".git"
      [FSNode.dir "objects" []] (by decide)
  · refine claim7_hidden_excluded.2 wfOk fsGit ⟨[], [], []⟩ "/r" "/r" ?_
    simp [watchDirectory, fsGit, treeGit, walkNode, walkChildren, watchStep, hiddenName,
      goBaseStr, goBase, goJoin, goCleanStr, goClean, cleanLoop, copySeg, sepNeed,
      FSNode.name, wfOk]

/-- C10: calling `WatchDirectory` on a directory whose own base name starts
with '.' registers nothing and leaves the watched-directory set unchanged:
the hidden check fires on the walk root before any marking, so the directory
is not recorded as watched and a later call will walk it again instead of
taking the fast path. -/
theorem claim10_hidden_root (dir : String) (h : hiddenName (goBaseStr dir) = true)
    (wf : String → Option String) (fs : String → Except String FSNode) (ds : DirState) :
    (watchDirectory wf fs ds dir).regs = ds.regs
    ∧ (watchDirectory wf fs ds dir).watchedDirectories = ds.watchedDirectories := by
  by_cases h1 : ds.watchedDirectories.contains dir = true
  · have h2 : dir ∈ ds.watchedDirectories := List.elem_iff.mp h1
    simp [watchDirectory, h2]
  · have h2 : dir ∉ ds.watchedDirectories := fun hm => h1 (List.elem_iff.mpr hm)
    cases hfs : fs dir with
    | error cause => simp [watchDirectory, h2, hfs]
    | ok t =>
      have hred : watchDirectory wf fs ds dir = walkNode wf ds dir (goBaseStr dir) t := by
        rw [watchDirectory, if_neg h1, hfs]
      rw [hred]
      cases t with
      | file n => simp [walkNode]
      | dir nm cs =>
        rw [walkNode_hidden wf ds dir (goBaseStr dir) nm cs h]
        exact ⟨rfl, rfl⟩

/-- Witness for C10 on the hidden directory `/p/.hid` of `fsHidden`. -/
theorem claim10_witness :
    (watchDirectory wfOk fsHidden ⟨[], [], []⟩ "/p/.hid").regs = (⟨[], [], []⟩ : DirState).regs
    ∧ (watchDirectory wfOk fsHidden ⟨[], [], []⟩ "/p/.hid").watchedDirectories
      = (⟨[], [], []⟩ : DirState).watchedDirectories :=
  claim10_hidden_root "/p/.hid" (by decide) wfOk fsHidden ⟨[], [], []⟩

/- ### Registry and `WatchImportPath` lemmas -/

theorem alGet_mem {α : Type} (l : List (String × α)) (k : String) (v : α)
    (h : alGet l k = some v) : k ∈ l.map Prod.fst := by
  induction l with
  | nil => simp [alGet] at h
  | cons kv rest ih =>
    obtain ⟨k', v'⟩ := kv
    rw [alGet] at h
    by_cases hk : k' = k
    · simp [hk]
    · rw [if_neg hk] at h
      simp only [List.map_cons, List.mem_cons]
      exact Or.inr (ih h)

theorem alSet_keys_mem {α : Type} (l : List (String × α)) (k : String) (v : α) :
    ∀ x ∈ (alSet l k v).map Prod.fst, x ∈ l.map Prod.fst ∨ x = k := by
  induction l with
  | nil =>
    intro x hx
    rw [alSet] at hx
    simp at hx
    exact Or.inr hx
  | cons kv rest ih =>
    obtain ⟨k', v'⟩ := kv
    intro x hx
    rw [alSet] at hx
    by_cases hk : k' = k
    · rw [if_pos hk] at hx
      simp only [List.map_cons, List.mem_cons] at hx ⊢
      rcases hx with hx | hx
      · exact Or.inr hx
      · exact Or.inl (Or.inr hx)
    · rw [if_neg hk] at hx
      simp only [List.map_cons, List.mem_cons] at hx ⊢
      rcases hx with hx | hx
      · exact Or.inl (Or.inl hx)
      · rcases ih x hx with hm | hm
        · exact Or.inl (Or.inr hm)
        · exact Or.inr hm

theorem alSet_keys_nodup {α : Type} (l : List (String × α)) (k : String) (v : α)
    (h : (l.map Prod.fst).Nodup) : ((alSet l k v).map Prod.fst).Nodup := by
  induction l with
  | nil => simp [alSet]
  | cons kv rest ih =>
    obtain ⟨k', v'⟩ := kv
    rw [alSet]
    by_cases hk : k' = k
    · rw [if_pos hk]
      subst hk
      simpa using h
    · rw [if_neg hk]
      simp only [List.map_cons, List.nodup_cons] at h ⊢
      refine ⟨?_, ih h.2⟩
      intro hmem
      rcases alSet_keys_mem rest k v k' hmem with hm | hm
      · exact h.1 hm
      · exact hk hm

theorem foldl_pres {σ α : Type} (f : σ → α → σ) (P : σ → Prop)
    (h : ∀ s x, P s → P (f s x)) : ∀ (l : List α) (s : σ), P s → P (l.foldl f s) := by
  intro l
  induction l with
  | nil => intro s hs; exact hs
  | cons a rest ih =>
    intro s hs
    exact ih (f s a) (h s a hs)

theorem watchAllDirs_proj (wf : String → Option String)
    (fs : String → Except String FSNode) (st : WatchState) :
    (watchAllDirs wf fs st).packages = st.packages
    ∧ (watchAllDirs wf fs st).dirPackages = st.dirPackages
    ∧ (watchAllDirs wf fs st).resolves = st.resolves := by
  have main : ∀ (l : List (String × Pkg)) (s : WatchState),
      ((l.foldl (fun s kv => { s with ds := watchDirectory wf fs s.ds kv.2.dir }) s).packages
        = s.packages)
      ∧ ((l.foldl (fun s kv => { s with ds := watchDirectory wf fs s.ds kv.2.dir }) s).dirPackages
        = s.dirPackages)
      ∧ ((l.foldl (fun s kv => { s with ds := watchDirectory wf fs s.ds kv.2.dir }) s).resolves
        = s.resolves) := by
    intro l
    induction l with
    | nil => intro s; exact ⟨rfl, rfl, rfl⟩
    | cons a rest ih =>
      intro s
      rw [List.foldl_cons]
      exact ih _
  exact main st.packages st

theorem watchImportPath_zero (res : String → Except String Pkg)
    (wf : String → Option String) (fs : String → Except String FSNode)
    (st : WatchState) (p : String) : watchImportPath res wf fs 0 st p = st := rfl

theorem watchImportPath_c (res : String → Except String Pkg)
    (wf : String → Option String) (fs : String → Except String FSNode)
    (fuel : Nat) (st : WatchState) :
    watchImportPath res wf fs (Nat.succ fuel) st "C" = st := by
  rw [watchImportPath, if_pos rfl]

theorem watchImportPath_mem (res : String → Except String Pkg)
    (wf : String → Option String) (fs : String → Except String FSNode)
    (fuel : Nat) (st : WatchState) (p : String)
    (h : (alGet st.packages p).isSome = true) (hc : p ≠ "C") :
    watchImportPath res wf fs (Nat.succ fuel) st p = st := by
  rw [watchImportPath, if_neg hc, if_pos h]

theorem watchImportPath_err (res : String → Except String Pkg)
    (wf : String → Option String) (fs : String → Except String FSNode)
    (fuel : Nat) (st : WatchState) (p cause : String) (hc : p ≠ "C")
    (h : alGet st.packages p = none) (hres : res p = .error cause) :
    watchImportPath res wf fs (Nat.succ fuel) st p =
      { st with
        resolves := st.resolves ++ [p]
        ds := { st.ds with errors := st.ds.errors ++ [ErrItem.importFail p cause] } } := by
  rw [watchImportPath, if_neg hc, if_neg (by rw [h]; simp), hres]

theorem watchImportPath_ok (res : String → Except String Pkg)
    (wf : String → Option String) (fs : String → Except String FSNode)
    (fuel : Nat) (st : WatchState) (p : String) (pkg : Pkg) (hc : p ≠ "C")
    (h : alGet st.packages p = none) (hres : res p = .ok pkg) :
    watchImportPath res wf fs (Nat.succ fuel) st p =
      watchAllDirs wf fs
        (pkg.imports.foldl (fun s ip => watchImportPath res wf fs fuel s ip)
          { st with
            resolves := st.resolves ++ [p]
            packages := alSet st.packages pkg.importPath pkg
            dirPackages := alSet st.dirPackages pkg.dir pkg }) := by
  rw [watchImportPath, if_neg hc, if_neg (by rw [h]; simp), hres]

theorem watchImportPath_keys_nodup (res : String → Except String Pkg)
    (wf : String → Option String) (fs : String → Except String FSNode) :
    ∀ (fuel : Nat) (st : WatchState) (p : String),
      (st.packages.map Prod.fst).Nodup →
      ((watchImportPath res wf fs fuel st p).packages.map Prod.fst).Nodup := by
  intro fuel
  induction fuel with
  | zero =>
    intro st p h
    rw [watchImportPath_zero]
    exact h
  | succ n ih =>
    intro st p h
    by_cases hc : p = "C"
    · subst hc
      rw [watchImportPath_c]
      exact h
    · by_cases hm : (alGet st.packages p).isSome = true
      · rw [watchImportPath_mem res wf fs n st p hm hc]
        exact h
      · have hnone : alGet st.packages p = none := by
          cases halg : alGet st.packages p with
          | none => rfl
          | some q => rw [halg] at hm; simp at hm
        cases hres : res p with
        | error cause =>
          rw [watchImportPath_err res wf fs n st p cause hc hnone hres]
          exact h
        | ok pkg =>
          rw [watchImportPath_ok res wf fs n st p pkg hc hnone hres]
          rw [(watchAllDirs_proj wf fs _).1]
          refine foldl_pres _ (fun s => (s.packages.map Prod.fst).Nodup)
            (fun s x hx => ih s x hx) pkg.imports _ ?_
          exact alSet_keys_nodup st.packages pkg.importPath pkg h

/-- C3: `WatchImportPath` is idempotent.  If a first call left an entry for
`p` in the registry, a second call returns immediately with the state
unchanged — no resolver call, no recursion into imports, no change to either
index — and the registry holds exactly one entry for `p`. -/
theorem claim3_watchImportPath_idempotent (res : String → Except String Pkg)
    (wf : String → Option String) (fs : String → Except String FSNode)
    (fuel1 fuel2 : Nat) (st0 : WatchState) (p : String) (q : Pkg)
    (hnd : (st0.packages.map Prod.fst).Nodup)
    (h : alGet (watchImportPath res wf fs fuel1 st0 p).packages p = some q) :
    watchImportPath res wf fs (fuel2 + 1) (watchImportPath res wf fs fuel1 st0 p) p
      = watchImportPath res wf fs fuel1 st0 p
    ∧ ((watchImportPath res wf fs fuel1 st0 p).packages.map Prod.fst).count p = 1 := by
  constructor
  · by_cases hc : p = "C"
    · subst hc
      exact watchImportPath_c res wf fs fuel2 _
    · exact watchImportPath_mem res wf fs fuel2 _ p (by rw [h]; rfl) hc
  · exact List.count_eq_one_of_mem
      (watchImportPath_keys_nodup res wf fs fuel1 st0 p hnd)
      (alGet_mem _ _ _ h)

/-- Witness for C3 with the concrete resolver `resolverA` and path `a`. -/
theorem claim3_witness :
    watchImportPath resolverA wfOk fsNone 1
        (watchImportPath resolverA wfOk fsNone 1 initState "a") "a"
      = watchImportPath resolverA wfOk fsNone 1 initState "a"
    ∧ ((watchImportPath resolverA wfOk fsNone 1 initState "a").packages.map
        Prod.fst).count "a" = 1 :=
  claim3_watchImportPath_idempotent resolverA wfOk fsNone 1 0 initState "a"
    { importPath := "a", dir := "/a", imports := [] } (by decide) (by decide)

/-- C4: on the cyclic dependency graph `A -> B -> A`, `WatchImportPath A`
terminates — the run is independent of any extra fuel beyond the three
recursion levels it actually uses — and resolves each of `A` and `B`
exactly once (`resolves = [A, B]`). -/
theorem claim4_cycle_terminates (res : String → Except String Pkg)
    (wf : String → Option String) (fs : String → Except String FSNode)
    (A B dA dB : String)
    (hA : res A = .ok { importPath := A, dir := dA, imports := [B] })
    (hB : res B = .ok { importPath := B, dir := dB, imports := [A] })
    (hAC : A ≠ "C") (hBC : B ≠ "C") (hAB : A ≠ B) :
    (∀ n, watchImportPath res wf fs (n + 3) initState A
        = watchImportPath res wf fs 3 initState A)
    ∧ (watchImportPath res wf fs 3 initState A).resolves = [A, B] := by
  have hgetB : alGet [(A, ({ importPath := A, dir := dA, imports := [B] } : Pkg))] B
      = none := by
    rw [alGet, if_neg hAB]
    rfl
  have hpk : alSet [(A, ({ importPath := A, dir := dA, imports := [B] } : Pkg))] B
      { importPath := B, dir := dB, imports := [A] }
      = [(A, { importPath := A, dir := dA, imports := [B] }),
         (B, { importPath := B, dir := dB, imports := [A] })] := by
    rw [alSet, if_neg hAB]
    rfl
  have hgetA : alGet [(A, ({ importPath := A, dir := dA, imports := [B] } : Pkg)),
      (B, ({ importPath := B, dir := dB, imports := [A] } : Pkg))] A
      = some { importPath := A, dir := dA, imports := [B] } := by
    rw [alGet, if_pos rfl]
  have key : ∀ m, watchImportPath res wf fs (m + 3) initState A
      = watchAllDirs wf fs (watchAllDirs wf fs
          { packages := [(A, { importPath := A, dir := dA, imports := [B] }),
              (B, { importPath := B, dir := dB, imports := [A] })]
            dirPackages := alSet [(dA, { importPath := A, dir := dA, imports := [B] })] dB
              { importPath := B, dir := dB, imports := [A] }
            resolves := [A, B]
            ds := ⟨[], [], []⟩ }) := by
    intro m
    calc watchImportPath res wf fs (m + 3) initState A
        = watchAllDirs wf fs (watchImportPath res wf fs (m + 2)
            { packages := [(A, { importPath := A, dir := dA, imports := [B] })]
              dirPackages := [(dA, { importPath := A, dir := dA, imports := [B] })]
              resolves := [A]
              ds := ⟨[], [], []⟩ } B) :=
          watchImportPath_ok res wf fs (m + 2) initState A _ hAC rfl hA
      _ = watchAllDirs wf fs (watchAllDirs wf fs
            ([A].foldl (fun s ip => watchImportPath res wf fs (m + 1) s ip)
              { packages := alSet [(A, { importPath := A, dir := dA, imports := [B] })] B
                  { importPath := B, dir := dB, imports := [A] }
                dirPackages := alSet [(dA, { importPath := A, dir := dA, imports := [B] })] dB
                  { importPath := B, dir := dB, imports := [A] }
                resolves := [A, B]
                ds := ⟨[], [], []⟩ })) :=
          congrArg (watchAllDirs wf fs)
            (watchImportPath_ok res wf fs (m + 1)
              { packages := [(A, { importPath := A, dir := dA, imports := [B] })]
                dirPackages := [(dA, { importPath := A, dir := dA, imports := [B] })]
                resolves := [A]
                ds := ⟨[], [], []⟩ } B _ hBC hgetB hB)
      _ = watchAllDirs wf fs (watchAllDirs wf fs
            ([A].foldl (fun s ip => watchImportPath res wf fs (m + 1) s ip)
              { packages := [(A, { importPath := A, dir := dA, imports := [B] }),
                  (B, { importPath := B, dir := dB, imports := [A] })]
                dirPackages := alSet [(dA, { importPath := A, dir := dA, imports := [B] })] dB
                  { importPath := B, dir := dB, imports := [A] }
                resolves := [A, B]
                ds := ⟨[], [], []⟩ })) := by
          rw [hpk]
      _ = watchAllDirs wf fs (watchAllDirs wf fs
            { packages := [(A, { importPath := A, dir := dA, imports := [B] }),
                (B, { importPath := B, dir := dB, imports := [A] })]
              dirPackages := alSet [(dA, { importPath := A, dir := dA, imports := [B] })] dB
                { importPath := B, dir := dB, imports := [A] }
              resolves := [A, B]
              ds := ⟨[], [], []⟩ }) :=
          congrArg (fun s => watchAllDirs wf fs (watchAllDirs wf fs s))
            (watchImportPath_mem res wf fs m
              { packages := [(A, { importPath := A, dir := dA, imports := [B] }),
                  (B, { importPath := B, dir := dB, imports := [A] })]
                dirPackages := alSet [(dA, { importPath := A, dir := dA, imports := [B] })] dB
                  { importPath := B, dir := dB, imports := [A] }
                resolves := [A, B]
                ds := ⟨[], [], []⟩ } A (by rw [hgetA]; rfl) hAC)
  refine ⟨fun n => (key n).trans (key 0).symm, ?_⟩
  have h3 : (watchAllDirs wf fs (watchAllDirs wf fs
      { packages := [(A, { importPath := A, dir := dA, imports := [B] }),
          (B, { importPath := B, dir := dB, imports := [A] })]
        dirPackages := alSet [(dA, { importPath := A, dir := dA, imports := [B] })] dB
          { importPath := B, dir := dB, imports := [A] }
        resolves := [A, B]
        ds := (⟨[], [], []⟩ : DirState) } : WatchState)).resolves = [A, B] := by
    rw [(watchAllDirs_proj wf fs _).2.2, (watchAllDirs_proj wf fs _).2.2]
  exact (congrArg WatchState.resolves (key 0)).trans h3

/-- Witness for C4 on the concrete cyclic resolver `resolverAB`. -/
theorem claim4_witness :
    (watchImportPath resolverAB wfOk fsNone (0 + 3) initState "a"
      = watchImportPath resolverAB wfOk fsNone 3 initState "a")
    ∧ (watchImportPath resolverAB wfOk fsNone 3 initState "a").resolves = ["a", "b"] := by
  have h := claim4_cycle_terminates resolverAB wfOk fsNone "a" "b" "/a" "/b"
    (by simp [resolverAB]) (by simp [resolverAB]) (by decide) (by decide) (by decide)
  exact ⟨h.1 0, h.2⟩

/-- C5: when resolution of an import path fails, `WatchImportPath` inserts
nothing into either registry index (the state changes only by recording the
resolver call and sending one descriptive error that carries the import path
and the underlying cause), and the surrounding loop goes on with the
remaining import paths from that state. -/
theorem claim5_resolution_failure (res : String → Except String Pkg)
    (wf : String → Option String) (fs : String → Except String FSNode)
    (fuel : Nat) (st : WatchState) (p cause : String) (rest : List String)
    (hc : p ≠ "C") (habs : alGet st.packages p = none)
    (hres : res p = .error cause) :
    watchImportPath res wf fs (fuel + 1) st p =
      { st with
        resolves := st.resolves ++ [p]
        ds := { st.ds with errors := st.ds.errors ++ [ErrItem.importFail p cause] } }
    ∧ watchAll res wf fs (fuel + 1) st (p :: rest) =
      watchAll res wf fs (fuel + 1)
        { st with
          resolves := st.resolves ++ [p]
          ds := { st.ds with errors := st.ds.errors ++ [ErrItem.importFail p cause] } }
        rest := by
  have h1 := watchImportPath_err res wf fs fuel st p cause hc habs hres
  refine ⟨h1, ?_⟩
  rw [watchAll, List.foldl_cons, h1]
  rfl

/-- Witness for C5 with the always-failing resolver `resolverFail`. -/
theorem claim5_witness :
    watchImportPath resolverFail wfOk fsNone 1 initState "x" =
      { initState with
        resolves := initState.resolves ++ ["x"]
        ds := { initState.ds with
          errors := initState.ds.errors ++ [ErrItem.importFail "x" "cannot find package"] } }
    ∧ watchAll resolverFail wfOk fsNone 1 initState ["x", "y"] =
      watchAll resolverFail wfOk fsNone 1
        { initState with
          resolves := initState.resolves ++ ["x"]
          ds := { initState.ds with
            errors := initState.ds.errors ++ [ErrItem.importFail "x" "cannot find package"] } }
        ["y"] :=
  claim5_resolution_failure resolverFail wfOk fsNone 0 initState "x" "cannot find package"
    ["y"] (by decide) (by decide) (by simp [resolverFail])

/-- C8: construction with an empty working-directory argument uses the
process working directory, falling back to "/" when it cannot be
determined; a notifier-open failure is returned as the construction error
with no watcher. -/
theorem claim8_construction (ip : List String) :
    (∀ d, ∃ w, newWatcher (.ok d) (.ok ()) ip "" = .ok w ∧ w.workingDirectory = d)
    ∧ (∃ w, newWatcher (.error ()) (.ok ()) ip "" = .ok w ∧ w.workingDirectory = "/")
    ∧ (∀ g wd e, newWatcher g (.error e) ip wd = .error e) := by
  refine ⟨fun d => ⟨_, rfl, rfl⟩, ⟨_, rfl, rfl⟩, fun g wd e => ?_⟩
  rw [newWatcher]

/-- C1 (code bug): `NewWatcher` builds the `Watcher` through a struct
literal that does not list the `done` field, so `done` stays the nil
channel.  `Close` then sends on that nil channel, which can never complete:
`Close` never returns, the notifier close is never reached, and the proxy
loop can never receive the stop signal. -/
theorem claim1_close_blocked (g : Except Unit String) (ip : List String)
    (wd : String) (w : WatcherModel)
    (h : newWatcher g (.ok ()) ip wd = .ok w) :
    w.done = GoChan.nilc
    ∧ (∀ r, closeOutcome w r = none)
    ∧ GoChan.recvCanFire w.done = false := by
  rw [newWatcher.eq_def] at h
  have hw := (Except.ok.injEq _ _).mp h
  rw [← hw]
  exact ⟨rfl, fun r => rfl, rfl⟩

/-- Witness for C1 at a concrete construction. -/
theorem claim1_witness :
    sampleWatcher.done = GoChan.nilc
    ∧ closeOutcome sampleWatcher none = none
    ∧ GoChan.recvCanFire sampleWatcher.done = false := by
  have h := claim1_close_blocked (.ok "/w") [] "" sampleWatcher (by rfl)
  exact ⟨h.1, h.2.1 none, h.2.2⟩
